import Mathlib

/-!
Shallow embedding of the HTM (hierarchical triangular mesh) pixelization
from `src/src/HtmPixelization.cc` (lsst::sphgeom).

Modelling conventions:
- `UnitVector3d` is modelled as a triple of rationals `V3`.  Root vertices
  are exact (components 0, 1, -1), so the root table is representable
  exactly.  Midpoint construction `UnitVector3d(a + b)` (vector sum followed
  by floating-point renormalization) and the `orientation` predicate are
  floating-point computations; they are modelled as explicit function
  parameters `mid : V3 → V3 → V3` and `orient : V3 → V3 → V3 → Int`, so
  every theorem quantifying over them holds for every floating-point
  realization of those primitives.
- `uint64_t` identifiers are modelled as `Nat` (every 64-bit value is a
  `Nat`; none of the verified operations overflow 64 bits for valid input).
- C++ `throw std::invalid_argument` is modelled by `Except String`.
-/

/-- A 3-vector with rational components, modelling `UnitVector3d` /
raw vertex coordinates. -/
structure V3 where
  x : ℚ
  y : ℚ
  z : ℚ
deriving DecidableEq, Repr

/-- An ordered vertex triple, modelling a spherical triangle
`UnitVector3d trixel[3]` / the `(v0, v1, v2)` locals. -/
structure Tri where
  v0 : V3
  v1 : V3
  v2 : V3
deriving DecidableEq, Repr

/-- Modelled from the spec: the maximum supported subdivision level is a
fixed compile-time bound (`HtmPixelization::MAX_LEVEL`, declared in the
header `HtmPixelization.h`, which is not among the provided sources; the
repository sets it to 24).  No verified claim depends on the exact value. -/
def MAX_LEVEL : Nat := 24

/-- Fuel-based computation of the most-significant-bit position, so that
`log2` reduces inside the kernel (`Nat.log2` is well-founded and does
not). -/
def log2Aux : Nat → Nat → Nat
  | 0, _ => 0
  | fuel + 1, x => if x ≥ 2 then log2Aux fuel (x / 2) + 1 else 0

/-- Modelled from the spec: `log2` from `curve.h` (not among the provided
sources) returns the bit position of the most-significant set bit of its
argument ("Computed purely from bit position of the MSB"), and 0 on input
0 (matching the bit-trick implementation's value on zero).  Proved equal
to `Nat.log2` below. -/
def log2 (x : Nat) : Nat := log2Aux x x

/-- Embeds `HtmPixelization::level` (HtmPixelization.cc lines 112-123): the
subdivision level encoded in an index, or -1 if the MSB position `j` is
even or equal to 1. -/
def htmLevel (i : Nat) : Int :=
  let j := log2 i
  if j % 2 = 0 ∨ j = 1 then -1 else ((j - 3) / 2 : Nat)

/-- The raw HTM root vertex table `HTM_ROOT_VERTEX` (lines 41-50), as the
triangle of root `r`.  The source array has exactly 8 rows and is only ever
indexed with `r < 8`; the wildcard row is row 7. -/
def htmRootTriangle : Nat → Tri
  | 0 => ⟨⟨1, 0, 0⟩, ⟨0, 0, -1⟩, ⟨0, 1, 0⟩⟩
  | 1 => ⟨⟨0, 1, 0⟩, ⟨0, 0, -1⟩, ⟨-1, 0, 0⟩⟩
  | 2 => ⟨⟨-1, 0, 0⟩, ⟨0, 0, -1⟩, ⟨0, -1, 0⟩⟩
  | 3 => ⟨⟨0, -1, 0⟩, ⟨0, 0, -1⟩, ⟨1, 0, 0⟩⟩
  | 4 => ⟨⟨1, 0, 0⟩, ⟨0, 0, 1⟩, ⟨0, -1, 0⟩⟩
  | 5 => ⟨⟨0, -1, 0⟩, ⟨0, 0, 1⟩, ⟨-1, 0, 0⟩⟩
  | 6 => ⟨⟨-1, 0, 0⟩, ⟨0, 0, 1⟩, ⟨0, 1, 0⟩⟩
  | _ => ⟨⟨0, 1, 0⟩, ⟨0, 0, 1⟩, ⟨1, 0, 0⟩⟩

/-- The child layout of `HtmPixelFinder::subdivide` (lines 84-106):
`mid[0] = v1+v2`, `mid[1] = v2+v0`, `mid[2] = v0+v1`; the four `visit`
calls receive `(v0, mid[2], mid[1])`, `(v1, mid[0], mid[2])`,
`(v2, mid[1], mid[0])` and `mid` itself, in that order. -/
def subdivideChild (mid : V3 → V3 → V3) (t : Tri) : Fin 4 → Tri :=
  fun c =>
    let m0 := mid t.v1 t.v2
    let m1 := mid t.v2 t.v0
    let m2 := mid t.v0 t.v1
    match c with
    | 0 => ⟨t.v0, m2, m1⟩
    | 1 => ⟨t.v1, m0, m2⟩
    | 2 => ⟨t.v2, m1, m0⟩
    | 3 => ⟨m0, m1, m2⟩

/-- The child identifier arithmetic of `HtmPixelFinder::subdivide`
(lines 91-104): `index *= 4` followed by `c` increments for child `c`. -/
def subdivideChildId (i : Nat) (c : Fin 4) : Nat := i * 4 + c.val

/-- The switch of `HtmPixelization::triangle` (lines 147-158):
`m12 = v1+v2`, `m20 = v2+v0`, `m01 = v0+v1`; child codes 0-3 update
`(v0, v1, v2)` as in the four cases.  A code outside 0-3 (impossible, since
the code is masked with `& 3`) falls through the switch leaving the
triangle unchanged. -/
def triangleChild (mid : V3 → V3 → V3) (t : Tri) : Nat → Tri :=
  fun child =>
    let m12 := mid t.v1 t.v2
    let m20 := mid t.v2 t.v0
    let m01 := mid t.v0 t.v1
    match child with
    | 0 => ⟨t.v0, m01, m20⟩
    | 1 => ⟨t.v1, m12, m01⟩
    | 2 => ⟨t.v2, m20, m12⟩
    | 3 => ⟨m12, m20, m01⟩
    | _ => t

/-- Embeds `HtmPixelization::triangle` (lines 125-160): validity check, root
extraction `r = (i >> 2l) & 7`, then replay of the child codes from the
most significant pair (shift `2l - 2`) down to the least (shift 0). -/
def htmTriangle (mid : V3 → V3 → V3) (i : Nat) : Except String Tri :=
  let l := htmLevel i
  if l < 0 ∨ l > (MAX_LEVEL : Int) then
    Except.error ("Invalid HTM index")
  else
    let ln := l.toNat
    let r := (i >>> (2 * ln)) % 8
    Except.ok ((List.range ln).reverse.foldl
      (fun t k => triangleChild mid t ((i >>> (2 * k)) % 4))
      (htmRootTriangle r))

/-- The root field of an identifier, exactly as `HtmPixelization::triangle`
extracts it: `(i >> 2·level) & 7` (line 131). -/
def htmRootField (i : Nat) : Nat := (i >>> (2 * (htmLevel i).toNat)) % 8

/-- Embeds `HtmPixelization::toString` (lines 162-176): validity check, then
`level + 1` base-4 digits printed least-significant first (the loop runs
for `l = level` down to `0`, shifting `i` right by 2 each time), preceded
by a hemisphere character taken from the low bit of what remains of `i`
after those shifts (`'S'` if 0, `'N'` if 1). -/
def htmToString (i : Nat) : Except String (List Char) :=
  let l := htmLevel i
  if l < 0 ∨ l > (MAX_LEVEL : Int) then
    Except.error ("Invalid HTM index")
  else
    let ln := l.toNat
    let digits := (List.range (ln + 1)).map
      (fun k => Char.ofNat (48 + (i >>> (2 * k)) % 4))
    let hem := if (i >>> (2 * (ln + 1))) % 2 = 0 then 'S' else 'N'
    Except.ok (hem :: digits.reverse)

/-- Embeds `HtmPixelization::HtmPixelization(int level)` (lines 178-182): stores
the level after a range check, modelled as `Except`. -/
def htmPixelizationInit (level : Int) : Except String Int :=
  if level < 0 ∨ level > (MAX_LEVEL : Int) then
    Except.error ("Invalid HTM subdivision level")
  else
    Except.ok level

/-- The root-selection of `HtmPixelization::index` (lines 186-205): the
nested sign tests on `z`, `y`, `x` choosing a root triangle number 0-7. -/
def htmRoot (x y z : ℚ) : Nat :=
  if z < 0 then
    if y > 0 then
      if x > 0 then 0 else 1
    else if y = 0 then
      if x ≥ 0 then 0 else 2
    else
      if x < 0 then 2 else 3
  else
    if y > 0 then
      if x > 0 then 7 else 6
    else if y = 0 then
      if x ≥ 0 then 7 else 5
    else
      if x < 0 then 5 else 4

/-- The branch selection of one descent step of `HtmPixelization::index`
(lines 222-240): compute `m01 = v0+v1`, `m20 = v2+v0`; if
`orientation(v, m01, m20) ≥ 0` the child is 0; otherwise compute
`m12 = v1+v2` and test `orientation(v, m12, m01)`, then
`orientation(v, m20, m12)`, falling through to child 3. -/
def indexSelect (mid : V3 → V3 → V3) (orient : V3 → V3 → V3 → Int)
    (v : V3) (t : Tri) : Fin 4 :=
  let m01 := mid t.v0 t.v1
  let m20 := mid t.v2 t.v0
  if orient v m01 m20 ≥ 0 then 0
  else
    let m12 := mid t.v1 t.v2
    if orient v m12 m01 ≥ 0 then 1
    else if orient v m20 m12 ≥ 0 then 2
    else 3

/-- The triangle update performed by one descent step of
`HtmPixelization::index` (lines 222-240) when child code `c` is chosen:
child 0 gives `(v0, m01, m20)`, child 1 `(v1, m12, m01)`, child 2
`(v2, m20, m12)`, child 3 `(m12, m20, m01)`. -/
def indexChild (mid : V3 → V3 → V3) (t : Tri) : Fin 4 → Tri :=
  fun c =>
    let m01 := mid t.v0 t.v1
    let m20 := mid t.v2 t.v0
    match c with
    | 0 => ⟨t.v0, m01, m20⟩
    | _ =>
      let m12 := mid t.v1 t.v2
      match c with
      | 1 => ⟨t.v1, m12, m01⟩
      | 2 => ⟨t.v2, m20, m12⟩
      | _ => ⟨m12, m20, m01⟩

/-- The identifier update of one descent step of `HtmPixelization::index`:
`i <<= 2` followed by `i += c` for child code `c` (lines 225-239). -/
def indexChildId (i : Nat) (c : Fin 4) : Nat := (i <<< 2) + c.val

/-- One full descent step of `HtmPixelization::index`: select the child
containing `v` and update the triangle and identifier accordingly. -/
def htmIndexStep (mid : V3 → V3 → V3) (orient : V3 → V3 → V3 → Int)
    (v : V3) (s : Tri × Nat) : Tri × Nat :=
  let c := indexSelect mid orient v s.1
  (indexChild mid s.1 c, indexChildId s.2 c)

/-- The descent loop of `HtmPixelization::index` (lines 222-241), run for
`fuel` iterations. -/
def htmIndexLoop (mid : V3 → V3 → V3) (orient : V3 → V3 → V3 → Int)
    (v : V3) : Nat → Tri × Nat → Tri × Nat
  | 0, s => s
  | n + 1, s => htmIndexLoop mid orient v n (htmIndexStep mid orient v s)

/-- Embeds `HtmPixelization::index` (lines 184-243): choose the root triangle `r`
from the signs of the coordinates of `v`, start from identifier `r + 8`
and the root triangle, and run `level` descent steps. -/
def htmIndex (mid : V3 → V3 → V3) (orient : V3 → V3 → V3 → Int)
    (v : V3) (level : Nat) : Nat :=
  let r := htmRoot v.x v.y v.z
  (htmIndexLoop mid orient v level (htmRootTriangle r, r + 8)).2

/-- The set of leaf-level descendants of node `i`, `d` levels down, built
from the child-identifier arithmetic of `HtmPixelFinder::subdivide`. -/
def htmDescendants (i : Nat) : Nat → Finset Nat
  | 0 => {i}
  | d + 1 =>
    (Finset.univ : Finset (Fin 4)).biUnion
      (fun c => htmDescendants (subdivideChildId i c) d)

/-! ## Basic facts about the embedded codec -/

lemma log2Aux_eq_natLog2 (fuel : Nat) : ∀ x : Nat, x ≤ fuel → log2Aux fuel x = Nat.log2 x := by
  induction fuel with
  | zero =>
    intro x hx
    have hx0 : x = 0 := by omega
    subst hx0
    simp [log2Aux, Nat.log2]
  | succ n ih =>
    intro x hx
    rw [log2Aux, Nat.log2]
    split
    · rw [ih (x / 2) (by omega)]
    · rfl

lemma log2_eq_natLog2 (x : Nat) : log2 x = Nat.log2 x :=
  log2Aux_eq_natLog2 x x le_rfl

lemma log2_of_bounds {m x : Nat} (h1 : 2 ^ m ≤ x) (h2 : x < 2 ^ (m + 1)) :
    log2 x = m := by
  rw [log2_eq_natLog2, Nat.log2_eq_log_two]
  exact Nat.log_eq_of_pow_le_of_lt_pow h1 h2

/-- C4: for every 64-bit identifier `id`, `levelOf(id)` returns `(j - 3) / 2`
where `j` is the bit position of the most-significant set bit of `id`,
whenever `j` is odd and greater than 1; otherwise (`j` even, or `j ≤ 1`) it
returns the invalid-level sentinel -1. -/
theorem c4_levelOf_msb (i : Nat) (_h64 : i < 2 ^ 64) :
    htmLevel i =
      if log2 i % 2 = 1 ∧ 1 < log2 i then (((log2 i - 3) / 2 : Nat) : Int)
      else -1 := by
  simp only [htmLevel]
  split_ifs <;> first | rfl | omega

/-- Witness for C4 at the concrete identifier 35 (level-1, MSB position 5). -/
theorem c4_levelOf_msb_witness :
    35 < 2 ^ 64 ∧
      htmLevel 35 =
        if log2 35 % 2 = 1 ∧ 1 < log2 35 then (((log2 35 - 3) / 2 : Nat) : Int)
        else -1 :=
  ⟨by decide, c4_levelOf_msb 35 (by decide)⟩

/-- C5: `resolve` and `toCanonicalString` signal an invalid-argument error
exactly when `levelOf(id)` is outside `[0, MAX_LEVEL]` (in particular
`resolve(0)` errors), and constructing the pixelization with a level
outside `[0, MAX_LEVEL]` signals an invalid-argument error; no other input
causes any of these operations to fail (each iff holds for every input). -/
theorem c5_error_conditions (mid : V3 → V3 → V3) (i : Nat) (L : Int) :
    ((htmTriangle mid i).isOk = true ↔
        0 ≤ htmLevel i ∧ htmLevel i ≤ (MAX_LEVEL : Int)) ∧
    ((htmToString i).isOk = true ↔
        0 ≤ htmLevel i ∧ htmLevel i ≤ (MAX_LEVEL : Int)) ∧
    htmTriangle mid 0 = Except.error ("Invalid HTM index") ∧
    ((htmPixelizationInit L).isOk = true ↔ 0 ≤ L ∧ L ≤ (MAX_LEVEL : Int)) := by
  refine ⟨?_, ?_, rfl, ?_⟩
  · simp only [htmTriangle]
    split_ifs with h <;> simp only [Except.isOk, Except.toBool] <;>
      refine ⟨fun hc => ?_, fun hc => ?_⟩ <;>
      first
        | exact absurd hc (by decide)
        | exact absurd hc (by omega)
        | omega
        | trivial
  · simp only [htmToString]
    split_ifs with h h2 <;> simp only [Except.isOk, Except.toBool] <;>
      refine ⟨fun hc => ?_, fun hc => ?_⟩ <;>
      first
        | exact absurd hc (by decide)
        | exact absurd hc (by omega)
        | omega
        | trivial
  · simp only [htmPixelizationInit]
    split_ifs with h <;> simp only [Except.isOk, Except.toBool] <;>
      refine ⟨fun hc => ?_, fun hc => ?_⟩ <;>
      first
        | exact absurd hc (by decide)
        | exact absurd hc (by omega)
        | omega
        | trivial

/-- C10: a point on the z-axis is classified deterministically by the
root-selection of `HtmPixelization::index`: with first and second
coordinates exactly zero, the chosen root is 0 when the third coordinate
is negative and 7 otherwise, so the descent starts from identifier 8,
respectively 15 (shown here by running the locator at level 0, whose
result is exactly the starting identifier). -/
theorem c10_pole_roots (mid : V3 → V3 → V3) (orient : V3 → V3 → V3 → Int)
    (z : ℚ) :
    htmRoot 0 0 z = (if z < 0 then 0 else 7) ∧
    htmIndex mid orient ⟨0, 0, z⟩ 0 = (if z < 0 then 8 else 15) := by
  constructor
  · simp only [htmRoot]
    split_ifs <;> first | rfl | linarith
  · simp only [htmIndex, htmIndexLoop, htmRoot]
    split_ifs <;> first | rfl | linarith

/-- C2 fails on the code: at second coordinate exactly zero with negative
first coordinate, the chosen root is the one on the negative-y side, not
the positive-y side.  At the unit point `(-3/5, 0, -4/5)` (southern
hemisphere) the code picks root 2, while any point with the same x and z
and a small positive y gets root 1. -/
theorem c2_counterexample :
    ((-3/5 : ℚ))^2 + ((0 : ℚ))^2 + ((-4/5 : ℚ))^2 = 1 ∧
    htmRoot (-3/5) 0 (-4/5) = 2 ∧
    htmRoot (-3/5) (1/1000000) (-4/5) = 1 ∧
    htmRoot (-3/5) (1/10^30) (-4/5) = 1 ∧
    (2 : Nat) ≠ 1 := by
  refine ⟨by norm_num, ?_, ?_, ?_, by norm_num⟩ <;>
    · simp only [htmRoot]
      norm_num

/-- C2 (amended): in the root-selection of `HtmPixelization::index`, the
tie at second coordinate exactly zero is broken by the sign of the first
coordinate: for positive x the root at y = 0 agrees with the root chosen
for any positive y (the positive-y side), while for negative x the root
at y = 0 agrees with the root chosen for any negative y (the negative-y
side), in both hemispheres. -/
theorem c2_amended_root_tie (x z y : ℚ) (hy : 0 < y) :
    (0 < x → htmRoot x 0 z = htmRoot x y z) ∧
    (x < 0 → htmRoot x 0 z = htmRoot x (-y) z) := by
  constructor <;> intro hx <;>
    · simp only [htmRoot]
      split_ifs <;> first | rfl | linarith

/-- Witness for the amended C2 at `x = 1, z = -1, y = 1/2` and
`x = -1, z = 1, y = 1/2`. -/
theorem c2_amended_root_tie_witness :
    (0 < (1/2 : ℚ) ∧
      (0 < (1 : ℚ) → htmRoot 1 0 (-1) = htmRoot 1 (1/2) (-1)) ∧
      ((1 : ℚ) < 0 → htmRoot 1 0 (-1) = htmRoot 1 (-(1/2)) (-1))) ∧
    (0 < (1/2 : ℚ) ∧
      (0 < (-1 : ℚ) → htmRoot (-1) 0 1 = htmRoot (-1) (1/2) 1) ∧
      ((-1 : ℚ) < 0 → htmRoot (-1) 0 1 = htmRoot (-1) (-(1/2)) 1)) :=
  ⟨⟨by norm_num, c2_amended_root_tie 1 (-1) (1/2) (by norm_num)⟩,
   ⟨by norm_num, c2_amended_root_tie (-1) 1 (1/2) (by norm_num)⟩⟩

/-- C3 fails on the code: the hemisphere character of
`HtmPixelization::toString` comes from the high bit of the root field, not
the low bit.  Identifier 9 is valid (level 0) with root field 1, an odd
root number, yet its string is "S1", starting with 'S'. -/
theorem c3_counterexample :
    htmRootField 9 = 1 ∧ htmRootField 9 % 2 = 1 ∧
    htmToString 9 = Except.ok (['S', '1']) ∧ ('S' : Char) ≠ 'N' := by
  refine ⟨by decide, by decide, ?_, by decide⟩
  rfl

/-- C3 (amended): for every valid identifier, the first character of
`toCanonicalString(id)` is derived from the high bit (bit 2) of the 3-bit
root field: the string starts with 'N' when the root number is at least 4
(a northern root) and with 'S' when it is less than 4 (a southern root). -/
theorem c3_amended_hemisphere (i : Nat)
    (h : 0 ≤ htmLevel i ∧ htmLevel i ≤ (MAX_LEVEL : Int)) :
    ∃ s, htmToString i = Except.ok s ∧
      s.head? = some (if 4 ≤ htmRootField i then 'N' else 'S') := by
  simp only [htmToString]
  rw [if_neg (by omega)]
  refine ⟨_, rfl, ?_⟩
  rw [List.head?_cons]
  have key : i >>> (2 * ((htmLevel i).toNat + 1)) % 2 =
      i >>> (2 * (htmLevel i).toNat) % 8 / 4 := by
    rw [show 2 * ((htmLevel i).toNat + 1) = 2 * (htmLevel i).toNat + 2 by ring,
        Nat.shiftRight_add, Nat.shiftRight_eq_div_pow]
    omega
  simp only [htmRootField]
  by_cases h4 : 4 ≤ i >>> (2 * (htmLevel i).toNat) % 8
  · rw [if_neg (by omega), if_pos h4]
  · rw [if_pos (by omega), if_neg h4]

/-- Witness for the amended C3 at the valid identifier 9. -/
theorem c3_amended_hemisphere_witness :
    (0 ≤ htmLevel 9 ∧ htmLevel 9 ≤ (MAX_LEVEL : Int)) ∧
    ∃ s, htmToString 9 = Except.ok s ∧
      s.head? = some (if 4 ≤ htmRootField 9 then 'N' else 'S') :=
  ⟨by decide, c3_amended_hemisphere 9 (by decide)⟩

/-- C6: the rasterizer's subdivision (`HtmPixelFinder::subdivide`), the
reverse resolver's replay (`HtmPixelization::triangle`) and the forward
locator's descent (`HtmPixelization::index`) use the identical child
layout — child 0 is `(v0, m01, m20)`, child 1 `(v1, m12, m01)`, child 2
`(v2, m20, m12)`, child 3 `(m12, m20, m01)` — with the same 2-bit child
codes: subdivision and descent both append code `c` as `4·i + c`, and the
replay's decode recovers the code and the parent identifier. -/
theorem c6_child_layout_agreement (mid : V3 → V3 → V3) (t : Tri) (c : Fin 4)
    (i : Nat) :
    subdivideChild mid t c = triangleChild mid t c.val ∧
    subdivideChild mid t c = indexChild mid t c ∧
    subdivideChildId i c = indexChildId i c ∧
    indexChildId i c % 4 = c.val ∧
    indexChildId i c >>> 2 = i := by
  have hc4 : c.val < 4 := c.isLt
  have hshl : i <<< 2 = i * 4 := by
    rw [Nat.shiftLeft_eq]
  have hshr : (i * 4 + c.val) >>> 2 = i := by
    rw [Nat.shiftRight_eq_div_pow]
    omega
  refine ⟨?_, ?_, ?_, ?_, ?_⟩
  · fin_cases c <;> rfl
  · fin_cases c <;> rfl
  · simp only [subdivideChildId, indexChildId, hshl]
  · simp only [indexChildId, hshl]
    omega
  · simp only [indexChildId, hshl]
    exact hshr

/-- C9: for every valid identifier, `toCanonicalString(id)` returns a
string of exactly `levelOf(id) + 2` characters whose first character is
'N' or 'S' and whose remaining characters are all base-4 digits. -/
theorem c9_tostring_shape (i : Nat)
    (h : 0 ≤ htmLevel i ∧ htmLevel i ≤ (MAX_LEVEL : Int)) :
    ∃ s, htmToString i = Except.ok s ∧
      s.length = (htmLevel i).toNat + 2 ∧
      (s.head? = some 'N' ∨ s.head? = some 'S') ∧
      ∀ ch ∈ s.tail, ch = '0' ∨ ch = '1' ∨ ch = '2' ∨ ch = '3' := by
  simp only [htmToString]
  rw [if_neg (by omega)]
  refine ⟨_, rfl, ?_, ?_, ?_⟩
  · simp only [List.length_cons, List.length_reverse, List.length_map,
      List.length_range]
  · rw [List.head?_cons]
    split_ifs
    · exact Or.inr rfl
    · exact Or.inl rfl
  · intro ch hch
    simp only [List.tail_cons, List.mem_reverse, List.mem_map,
      List.mem_range] at hch
    obtain ⟨k, _, rfl⟩ := hch
    have hm : i >>> (2 * k) % 4 = 0 ∨ i >>> (2 * k) % 4 = 1 ∨
        i >>> (2 * k) % 4 = 2 ∨ i >>> (2 * k) % 4 = 3 := by omega
    rcases hm with h0 | h0 | h0 | h0 <;> rw [h0] <;> decide

/-- Witness for C9 at the valid identifier 9. -/
theorem c9_tostring_shape_witness :
    (0 ≤ htmLevel 9 ∧ htmLevel 9 ≤ (MAX_LEVEL : Int)) ∧
    ∃ s, htmToString 9 = Except.ok s ∧
      s.length = (htmLevel 9).toNat + 2 ∧
      (s.head? = some 'N' ∨ s.head? = some 'S') ∧
      ∀ ch ∈ s.tail, ch = '0' ∨ ch = '1' ∨ ch = '2' ∨ ch = '3' :=
  ⟨by decide, c9_tostring_shape 9 (by decide)⟩

/-! ## Descendant ranges (C7) -/

lemma htmDescendants_succ (i d : Nat) :
    htmDescendants i (d + 1) =
      (Finset.univ : Finset (Fin 4)).biUnion
        (fun c => htmDescendants (subdivideChildId i c) d) := rfl

lemma htmDescendants_eq_Ico (d : Nat) :
    ∀ i : Nat, htmDescendants i d = Finset.Ico (i * 4 ^ d) ((i + 1) * 4 ^ d) := by
  induction d with
  | zero =>
    intro i
    simp [htmDescendants, Nat.Ico_succ_singleton]
  | succ d ih =>
    intro i
    rw [htmDescendants]
    ext x
    simp only [Finset.mem_biUnion, Finset.mem_univ, true_and, ih,
      Finset.mem_Ico, subdivideChildId]
    have hP : 0 < 4 ^ d := pow_pos (by norm_num) d
    constructor
    · rintro ⟨c, hc1, hc2⟩
      have hc4 : c.val < 4 := c.isLt
      constructor
      · calc i * 4 ^ (d + 1) = i * 4 * 4 ^ d := by ring
          _ ≤ (i * 4 + c.val) * 4 ^ d := Nat.mul_le_mul_right _ (by omega)
          _ ≤ x := hc1
      · calc x < (i * 4 + c.val + 1) * 4 ^ d := hc2
          _ ≤ (i + 1) * 4 * 4 ^ d := Nat.mul_le_mul_right _ (by omega)
          _ = (i + 1) * 4 ^ (d + 1) := by ring
    · rintro ⟨h1, h2⟩
      have hq1 : i * 4 ≤ x / 4 ^ d := by
        rw [Nat.le_div_iff_mul_le hP]
        calc i * 4 * 4 ^ d = i * 4 ^ (d + 1) := by ring
          _ ≤ x := h1
      have hq2 : x / 4 ^ d < i * 4 + 4 := by
        rw [Nat.div_lt_iff_lt_mul hP]
        calc x < (i + 1) * 4 ^ (d + 1) := h2
          _ = (i * 4 + 4) * 4 ^ d := by ring
      refine ⟨⟨x / 4 ^ d - i * 4, by omega⟩, ?_, ?_⟩
      · have hqe : i * 4 + (x / 4 ^ d - i * 4) = x / 4 ^ d := by omega
        simp only [hqe]
        exact Nat.div_mul_le_self x (4 ^ d)
      · have hqe : i * 4 + (x / 4 ^ d - i * 4) + 1 = x / 4 ^ d + 1 := by omega
        simp only [hqe]
        exact (Nat.div_lt_iff_lt_mul hP).mp (Nat.lt_succ_self _)

lemma Ico_mul_disjoint_aux {u v : Nat} (P : Nat) (huv : u < v) :
    Disjoint (Finset.Ico (u * P) ((u + 1) * P)) (Finset.Ico (v * P) ((v + 1) * P)) := by
  refine Finset.disjoint_left.mpr ?_
  intro x hx hx'
  rw [Finset.mem_Ico] at hx hx'
  have h1 : (u + 1) * P ≤ v * P := Nat.mul_le_mul_right _ (by omega)
  have : x < x := lt_of_lt_of_le (lt_of_lt_of_le hx.2 h1) hx'.1
  exact absurd this (lt_irrefl x)

lemma Ico_mul_disjoint {a b : Nat} (P : Nat) (hab : a ≠ b) :
    Disjoint (Finset.Ico (a * P) ((a + 1) * P)) (Finset.Ico (b * P) ((b + 1) * P)) := by
  rcases Nat.lt_or_ge a b with hlt | hge
  · exact Ico_mul_disjoint_aux P hlt
  · exact (Ico_mul_disjoint_aux P (by omega)).symm

lemma shiftLeft_two_mul (a n : Nat) : a <<< (2 * n) = a * 4 ^ n := by
  rw [Nat.shiftLeft_eq, pow_mul]
  norm_num

/-- C7: for every node with identifier `i` at level `l` and every target
level `L ≥ l`, the leaf-level descendant set of `i` (generated by the
child-identifier arithmetic of `HtmPixelFinder::subdivide`) is exactly the
contiguous integer range `[i << 2(L-l), (i+1) << 2(L-l))`, and the four
children's descendant ranges exactly partition the parent's range — their
union is the parent's range, they are pairwise disjoint, and each is
strictly contained in the parent's range. -/
theorem c7_descendant_ranges (i l L : Nat) (_h : l ≤ L) :
    htmDescendants i (L - l) =
      Finset.Ico (i <<< (2 * (L - l))) ((i + 1) <<< (2 * (L - l))) ∧
    (l < L →
      (((Finset.univ : Finset (Fin 4)).biUnion (fun c =>
          Finset.Ico (subdivideChildId i c <<< (2 * (L - (l + 1))))
            ((subdivideChildId i c + 1) <<< (2 * (L - (l + 1))))) =
        Finset.Ico (i <<< (2 * (L - l))) ((i + 1) <<< (2 * (L - l))))) ∧
      (∀ c c' : Fin 4, c ≠ c' →
        Disjoint
          (Finset.Ico (subdivideChildId i c <<< (2 * (L - (l + 1))))
            ((subdivideChildId i c + 1) <<< (2 * (L - (l + 1)))))
          (Finset.Ico (subdivideChildId i c' <<< (2 * (L - (l + 1))))
            ((subdivideChildId i c' + 1) <<< (2 * (L - (l + 1)))))) ∧
      (∀ c : Fin 4,
        Finset.Ico (subdivideChildId i c <<< (2 * (L - (l + 1))))
            ((subdivideChildId i c + 1) <<< (2 * (L - (l + 1)))) ⊂
          Finset.Ico (i <<< (2 * (L - l))) ((i + 1) <<< (2 * (L - l))))) := by
  simp only [shiftLeft_two_mul]
  refine ⟨htmDescendants_eq_Ico _ _, fun hlL => ?_⟩
  have hd : L - l = (L - (l + 1)) + 1 := by omega
  set e := L - (l + 1) with he
  have hPe : 0 < 4 ^ e := pow_pos (by norm_num) e
  have hunion :
      ((Finset.univ : Finset (Fin 4)).biUnion (fun c =>
          Finset.Ico (subdivideChildId i c * 4 ^ e)
            ((subdivideChildId i c + 1) * 4 ^ e))) =
        Finset.Ico (i * 4 ^ (L - l)) ((i + 1) * 4 ^ (L - l)) := by
    have hb : ((Finset.univ : Finset (Fin 4)).biUnion (fun c =>
        Finset.Ico (subdivideChildId i c * 4 ^ e)
          ((subdivideChildId i c + 1) * 4 ^ e))) =
        ((Finset.univ : Finset (Fin 4)).biUnion (fun c =>
          htmDescendants (subdivideChildId i c) e)) := by
      refine Finset.biUnion_congr rfl ?_
      intro c _
      rw [htmDescendants_eq_Ico]
    rw [hd, hb, ← htmDescendants_succ, htmDescendants_eq_Ico]
  refine ⟨hunion, ?_, ?_⟩
  · intro c c' hcc
    exact Ico_mul_disjoint (4 ^ e) (by
      simp only [subdivideChildId]
      have := Fin.val_ne_of_ne hcc
      omega)
  · intro c
    have hsub :
        Finset.Ico (subdivideChildId i c * 4 ^ e)
            ((subdivideChildId i c + 1) * 4 ^ e) ⊆
          Finset.Ico (i * 4 ^ (L - l)) ((i + 1) * 4 ^ (L - l)) := by
      rw [← hunion]
      exact Finset.subset_biUnion_of_mem
        (fun c => Finset.Ico (subdivideChildId i c * 4 ^ e)
          ((subdivideChildId i c + 1) * 4 ^ e)) (Finset.mem_univ c)
    refine Finset.ssubset_iff_subset_ne.mpr ⟨hsub, fun heq => ?_⟩
    have hcard := congrArg Finset.card heq
    rw [Nat.card_Ico, Nat.card_Ico] at hcard
    have h1 : (subdivideChildId i c + 1) * 4 ^ e -
        subdivideChildId i c * 4 ^ e = 4 ^ e := by
      have : (subdivideChildId i c + 1) * 4 ^ e =
          subdivideChildId i c * 4 ^ e + 4 ^ e := by ring
      omega
    have h2 : (i + 1) * 4 ^ (L - l) - i * 4 ^ (L - l) = 4 ^ (L - l) := by
      have : (i + 1) * 4 ^ (L - l) = i * 4 ^ (L - l) + 4 ^ (L - l) := by ring
      omega
    rw [h1, h2, hd, pow_succ] at hcard
    omega

/-- Witness for C7 at `i = 9`, `l = 0`, `L = 1`. -/
theorem c7_descendant_ranges_witness :
    (0 : Nat) ≤ 1 ∧
    (htmDescendants 9 (1 - 0) =
      Finset.Ico ((9 : Nat) <<< (2 * (1 - 0))) ((9 + 1) <<< (2 * (1 - 0))) ∧
    (0 < 1 →
      (((Finset.univ : Finset (Fin 4)).biUnion (fun c =>
          Finset.Ico (subdivideChildId 9 c <<< (2 * (1 - (0 + 1))))
            ((subdivideChildId 9 c + 1) <<< (2 * (1 - (0 + 1))))) =
        Finset.Ico ((9 : Nat) <<< (2 * (1 - 0))) ((9 + 1) <<< (2 * (1 - 0))))) ∧
      (∀ c c' : Fin 4, c ≠ c' →
        Disjoint
          (Finset.Ico (subdivideChildId 9 c <<< (2 * (1 - (0 + 1))))
            ((subdivideChildId 9 c + 1) <<< (2 * (1 - (0 + 1)))))
          (Finset.Ico (subdivideChildId 9 c' <<< (2 * (1 - (0 + 1))))
            ((subdivideChildId 9 c' + 1) <<< (2 * (1 - (0 + 1)))))) ∧
      (∀ c : Fin 4,
        Finset.Ico (subdivideChildId 9 c <<< (2 * (1 - (0 + 1))))
            ((subdivideChildId 9 c + 1) <<< (2 * (1 - (0 + 1)))) ⊂
          Finset.Ico ((9 : Nat) <<< (2 * (1 - 0))) ((9 + 1) <<< (2 * (1 - 0)))))) :=
  ⟨by decide, c7_descendant_ranges 9 0 1 (by decide)⟩

/-! ## Identifier range of the forward locator (C8) -/

lemma htmRoot_lt_8 (x y z : ℚ) : htmRoot x y z < 8 := by
  simp only [htmRoot]
  split_ifs <;> norm_num

lemma htmIndexLoop_succ (mid : V3 → V3 → V3) (orient : V3 → V3 → V3 → Int)
    (v : V3) (n : Nat) (s : Tri × Nat) :
    htmIndexLoop mid orient v (n + 1) s =
      htmIndexLoop mid orient v n (htmIndexStep mid orient v s) := rfl

lemma htmIndexLoop_snd_bounds (mid : V3 → V3 → V3)
    (orient : V3 → V3 → V3 → Int) (v : V3) (L : Nat) :
    ∀ (s : Tri × Nat) (lo hi : Nat), lo ≤ s.2 → s.2 < hi →
      lo * 4 ^ L ≤ (htmIndexLoop mid orient v L s).2 ∧
      (htmIndexLoop mid orient v L s).2 < hi * 4 ^ L := by
  induction L with
  | zero =>
    intro s lo hi h1 h2
    simp only [htmIndexLoop, pow_zero, mul_one]
    omega
  | succ n ih =>
    intro s lo hi h1 h2
    rw [htmIndexLoop_succ]
    have hc : (indexSelect mid orient v s.1).val < 4 :=
      Fin.isLt _
    have hstep : (htmIndexStep mid orient v s).2 =
        s.2 * 4 + (indexSelect mid orient v s.1).val := by
      simp only [htmIndexStep, indexChildId, Nat.shiftLeft_eq]
    have h1' : lo * 4 ≤ (htmIndexStep mid orient v s).2 := by
      rw [hstep]
      omega
    have h2' : (htmIndexStep mid orient v s).2 < hi * 4 := by
      rw [hstep]
      omega
    have hres := ih (htmIndexStep mid orient v s) (lo * 4) (hi * 4) h1' h2'
    have e1 : lo * 4 * 4 ^ n = lo * 4 ^ (n + 1) := by ring
    have e2 : hi * 4 * 4 ^ n = hi * 4 ^ (n + 1) := by ring
    rw [e1, e2] at hres
    exact hres

/-- C8: for every unit point `v` and every configured level
`L ∈ [0, MAX_LEVEL]`, the identifier returned by `HtmPixelization::index`
is a valid identifier whose encoded level is exactly `L`; equivalently it
lies in `[8·4^L, 16·4^L)`.  This holds for every realization of the
floating-point midpoint and orientation primitives. -/
theorem c8_index_is_valid_level (mid : V3 → V3 → V3)
    (orient : V3 → V3 → V3 → Int) (v : V3) (L : Nat) (_hL : L ≤ MAX_LEVEL) :
    htmLevel (htmIndex mid orient v L) = (L : Int) ∧
    8 * 4 ^ L ≤ htmIndex mid orient v L ∧
    htmIndex mid orient v L < 16 * 4 ^ L := by
  have hr : htmRoot v.x v.y v.z < 8 := htmRoot_lt_8 _ _ _
  have hidx : htmIndex mid orient v L =
      (htmIndexLoop mid orient v L
        (htmRootTriangle (htmRoot v.x v.y v.z),
         htmRoot v.x v.y v.z + 8)).2 := rfl
  have hb := htmIndexLoop_snd_bounds mid orient v L
    (htmRootTriangle (htmRoot v.x v.y v.z), htmRoot v.x v.y v.z + 8)
    8 16 (by simp only []; omega) (by simp only []; omega)
  rw [hidx]
  refine ⟨?_, hb.1, hb.2⟩
  have h84 : (8 : Nat) * 4 ^ L = 2 ^ (2 * L + 3) := by
    rw [pow_add, pow_mul]
    norm_num
    ring
  have h164 : (16 : Nat) * 4 ^ L = 2 ^ (2 * L + 3 + 1) := by
    rw [pow_add, pow_add, pow_mul]
    norm_num
    ring
  have hlog : log2 ((htmIndexLoop mid orient v L
      (htmRootTriangle (htmRoot v.x v.y v.z),
       htmRoot v.x v.y v.z + 8)).2) = 2 * L + 3 := by
    refine log2_of_bounds ?_ ?_
    · rw [← h84]
      exact hb.1
    · rw [← h164]
      exact hb.2
  simp only [htmLevel, hlog]
  rw [if_neg (by omega)]
  have hdiv : (2 * L + 3 - 3) / 2 = L := by omega
  rw [hdiv]

/-- Witness for C8 with a concrete midpoint function (first argument),
orientation oracle (constant 0), the unit point `(1, 0, 0)` and level 1. -/
theorem c8_index_is_valid_level_witness :
    1 ≤ MAX_LEVEL ∧
    (htmLevel (htmIndex (fun a _ => a) (fun _ _ _ => 0) ⟨1, 0, 0⟩ 1) =
        ((1 : Nat) : Int) ∧
      8 * 4 ^ 1 ≤ htmIndex (fun a _ => a) (fun _ _ _ => 0) ⟨1, 0, 0⟩ 1 ∧
      htmIndex (fun a _ => a) (fun _ _ _ => 0) ⟨1, 0, 0⟩ 1 < 16 * 4 ^ 1) :=
  ⟨by decide, c8_index_is_valid_level (fun a _ => a) (fun _ _ _ => 0)
    ⟨1, 0, 0⟩ 1 (by decide)⟩
